import Mathlib

/-!
Shallow embedding of the Esta virtual machine (`src/vm/mod.rs`).

The VM is generic over a numeric type `T` bounded by
`Num + Clone + PartialOrd + CheckedNeg`; we capture that capability set in
the structure `NumOps`.  The Rust operand stack is a `Vec<T>` whose *end*
is the top of the stack; we model it as a `List T` whose *head* is the top
(so `Vec::last` is `List.head?`, `Vec::push` conses, and a Rust stack
`[..., y, x]` is the list `x :: y :: ...`).

Rust `run` can end three ways: `Ok(())`, `Err("Empty stack")` (the only
typed error, produced by `pop` on an empty stack), or a panic.  Panics are
modelled by the `Panic` type, tagged by the site that raised it, mirroring
the location information a Rust panic reports:
  * `ir.data.clone().unwrap()` on a `LOADC` with no operand,
  * `checked_neg().unwrap()` when negation is unrepresentable,
  * the indexing `self.inst[self.pc]` past the end of the program.

The Rust loop advances `pc` by one on every fetch and the program is never
mutated, so the loop runs at most `inst.length - pc` more iterations from
any state; `runFuel` uses exactly that quantity as structural fuel and
`run_eq` below proves the resulting `run` satisfies the loop's unfolding
equation, so the fuel is an implementation detail, not a semantic one.
-/

namespace Esta

/-- The opcodes of `vm/bytecode.rs` as matched exhaustively by `run`. -/
inductive ByteCode : Type where
  | HALT | LOADC | ADD | SUB | MUL | DIV | MOD
  | AND | OR | EQ | NEQ | LE | LEQ | GE | GEQ | NEG | NOT
  deriving DecidableEq

/-- Modelled from the spec: `vm/bytecode.rs` is not in the sources, but the
spec (§3, §4.1) fixes the Instruction record as an opcode paired with an
optional immediate operand, exactly as `run` consumes it
(`ir.inst`, `ir.data`). -/
structure Inst (T : Type) where
  inst : ByteCode
  data : Option T
  deriving DecidableEq

/-- Construction form (a): an instruction carrying no data. -/
def Inst.new_inst {T : Type} (b : ByteCode) : Inst T := ⟨b, none⟩

/-- Construction form (b): an instruction carrying one immediate value. -/
def Inst.new_data {T : Type} (b : ByteCode) (d : T) : Inst T := ⟨b, some d⟩

/-- The capability set of the Rust bound `Num + Clone + PartialOrd +
CheckedNeg`: total arithmetic, zero and one, boolean-valued equality and
order tests, and a fallible negation. -/
structure NumOps (T : Type) where
  add : T → T → T
  sub : T → T → T
  mul : T → T → T
  div : T → T → T
  mod : T → T → T
  zero : T
  one : T
  beq : T → T → Bool
  blt : T → T → Bool
  ble : T → T → Bool
  checked_neg : T → Option T

/-- The VM state: operand stack, (unused) memory, program, the scratch
register `data` written by `pop`, and the program counter. -/
structure VirtualMachine (T : Type) where
  stack : List T
  mem : List T
  inst : List (Inst T)
  data : T
  pc : Nat
  deriving DecidableEq

/-- Constructor `VirtualMachine::new`: empty stack and memory, `data`
initialised to zero, `pc` at 0; the program is stored untouched, with no
validation. -/
def VirtualMachine.new {T : Type} (ops : NumOps T) (inst : List (Inst T)) :
    VirtualMachine T :=
  { stack := [], mem := [], inst := inst, data := ops.zero, pc := 0 }

/-- Inspection API `debug_stack` exposes the stack; we present it in
`Vec` order (bottom of the stack first), hence the reversal of our
top-first list. -/
def VirtualMachine.debug_stack {T : Type} (vm : VirtualMachine T) : List T :=
  vm.stack.reverse

/-- Encoding `bool_to_t`: true ↦ one, false ↦ zero. -/
def bool_to_t {T : Type} (ops : NumOps T) (cond : Bool) : T :=
  match cond with
  | true => ops.one
  | false => ops.zero

/-- Coercion `t_to_bool`: a value is true exactly when it compares equal
to one. -/
def t_to_bool {T : Type} (ops : NumOps T) (cond : T) : Bool :=
  ops.beq cond ops.one

/-- The panic sites of `run`, tagged by location. -/
inductive Panic : Type where
  | unwrapNoneLoadc
  | unwrapNoneNeg
  | indexOutOfBounds
  deriving DecidableEq

/-- Accessor `top`: `self.stack.last().ok_or("Empty stack")`. -/
def top {T : Type} (stack : List T) : Except String T :=
  match stack.head? with
  | none => .error "Empty stack"
  | some t => .ok t

/-- Operation `pop`, acting on the two fields it touches (`stack`,
`data`): on
success it returns the popped value, the shrunken stack and the updated
scratch register; on failure it returns the error string together with the
unchanged stack and scratch register. -/
def pop {T : Type} (stack : List T) (data : T) :
    Except (String × List T × T) (T × List T × T) :=
  match top stack with
  | .error m => .error (m, stack, data)
  | .ok t => .ok (t, stack.tail, t)

/-- Outcome of executing one decoded instruction on (`stack`, `data`). -/
inductive ExecResult (T : Type) : Type where
  | ok : List T → T → ExecResult T
  | halt : List T → T → ExecResult T
  | err : String → List T → T → ExecResult T
  | fault : Panic → ExecResult T
  deriving DecidableEq

/-- The shared shape of every two-operand opcode in `run`:
`let res = f(self.pop()?, self.pop()?); self.push(res)`, with Rust's
left-to-right evaluation making the first pop the left argument. -/
def binOp {T : Type} (f : T → T → T) (stack : List T) (data : T) :
    ExecResult T :=
  match pop stack data with
  | .error (m, s, d) => .err m s d
  | .ok (a, s1, d1) =>
    match pop s1 d1 with
    | .error (m, s, d) => .err m s d
    | .ok (b, s2, d2) => .ok (f a b :: s2) d2

/-- The body of the `match ir.inst` in `run`, acting on the state the
opcodes touch.  Each arm is the corresponding Rust arm. -/
def execInst {T : Type} (ops : NumOps T) (ir : Inst T) (stack : List T)
    (data : T) : ExecResult T :=
  match ir.inst with
  | .HALT => .halt stack data
  | .LOADC =>
    match ir.data with
    | none => .fault .unwrapNoneLoadc
    | some d => .ok (d :: stack) data
  | .ADD => binOp ops.add stack data
  | .SUB => binOp ops.sub stack data
  | .MUL => binOp ops.mul stack data
  | .DIV => binOp ops.div stack data
  | .MOD => binOp ops.mod stack data
  | .AND => binOp (fun a b => bool_to_t ops (t_to_bool ops a && t_to_bool ops b)) stack data
  | .OR => binOp (fun a b => bool_to_t ops (t_to_bool ops a || t_to_bool ops b)) stack data
  | .EQ => binOp (fun a b => bool_to_t ops (ops.beq a b)) stack data
  | .NEQ => binOp (fun a b => bool_to_t ops (!ops.beq a b)) stack data
  | .LE => binOp (fun a b => bool_to_t ops (ops.blt a b)) stack data
  | .LEQ => binOp (fun a b => bool_to_t ops (ops.ble a b)) stack data
  | .GE => binOp (fun a b => bool_to_t ops (ops.blt a b)) stack data
  | .GEQ => binOp (fun a b => bool_to_t ops (ops.ble a b)) stack data
  | .NEG =>
    match pop stack data with
    | .error (m, s, d) => .err m s d
    | .ok (a, s1, d1) =>
      match ops.checked_neg a with
      | none => .fault .unwrapNoneNeg
      | some r => .ok (r :: s1) d1
  | .NOT =>
    match pop stack data with
    | .error (m, s, d) => .err m s d
    | .ok (a, s1, d1) => .ok (bool_to_t ops (!t_to_bool ops a) :: s1) d1

/-- Result of one fetch-decode-execute iteration of the loop. -/
inductive StepResult (T : Type) : Type where
  | next : VirtualMachine T → StepResult T
  | halt : VirtualMachine T → StepResult T
  | err : String → VirtualMachine T → StepResult T
  | fault : Panic → StepResult T
  deriving DecidableEq

/-- One iteration of the loop in `run`: fetch `inst[pc]` (a panic when out
of bounds), advance `pc`, execute.  On `Err` the `?` operator returns with
the mutations made so far (the advanced `pc`, the pops) kept in place. -/
def step {T : Type} (ops : NumOps T) (vm : VirtualMachine T) : StepResult T :=
  if h : vm.pc < vm.inst.length then
    match execInst ops (vm.inst.get ⟨vm.pc, h⟩) vm.stack vm.data with
    | .ok s d => .next { vm with stack := s, data := d, pc := vm.pc + 1 }
    | .halt s d => .halt { vm with stack := s, data := d, pc := vm.pc + 1 }
    | .err m s d => .err m { vm with stack := s, data := d, pc := vm.pc + 1 }
    | .fault p => .fault p
  else .fault .indexOutOfBounds

/-- Final outcome of `run`: `Ok(())` with the final state, `Err` with the
message and the state at failure, or a panic. -/
inductive RunResult (T : Type) : Type where
  | ok : VirtualMachine T → RunResult T
  | err : String → VirtualMachine T → RunResult T
  | fault : Panic → RunResult T
  deriving DecidableEq

/-- The loop of `run`, with structural fuel.  Fuel 0 is reached only with
`pc ≥ inst.length` (see `run_eq`), where the fetch panics. -/
def runFuel {T : Type} (ops : NumOps T) : Nat → VirtualMachine T → RunResult T
  | 0, _ => .fault .indexOutOfBounds
  | n + 1, vm =>
    match step ops vm with
    | .next vm' => runFuel ops n vm'
    | .halt vm' => .ok vm'
    | .err m vm' => .err m vm'
    | .fault p => .fault p

/-- Execution entry point `VirtualMachine::run`.  The fuel
`inst.length - pc` bounds the number
of remaining iterations because each iteration advances `pc` by one and
needs `pc < inst.length` to fetch. -/
def run {T : Type} (ops : NumOps T) (vm : VirtualMachine T) : RunResult T :=
  runFuel ops (vm.inst.length - vm.pc) vm

/-- Number of instructions fetched (hence executed) by `run`, counted by
the same recursion: a `next` outcome is one fetch plus the rest, the other
in-bounds outcomes are the single fetch of that final instruction. -/
def stepCountFuel {T : Type} (ops : NumOps T) :
    Nat → VirtualMachine T → Nat
  | 0, _ => 0
  | n + 1, vm =>
    match step ops vm with
    | .next vm' => stepCountFuel ops n vm' + 1
    | .halt _ => 1
    | .err _ _ => 1
    | .fault _ => if vm.pc < vm.inst.length then 1 else 0

/-- Number of instructions fetched by `run` from a given state. -/
def stepCount {T : Type} (ops : NumOps T) (vm : VirtualMachine T) : Nat :=
  stepCountFuel ops (vm.inst.length - vm.pc) vm

/-- The opcodes that pop two operands. -/
def isBinaryOp : ByteCode → Bool
  | .ADD | .SUB | .MUL | .DIV | .MOD | .AND | .OR
  | .EQ | .NEQ | .LE | .LEQ | .GE | .GEQ => true
  | _ => false

/-- The opcodes that pop exactly one operand. -/
def isUnaryOp : ByteCode → Bool
  | .NEG | .NOT => true
  | _ => false

/-- Reachability: state `u` is reached from `vm` by zero or more `next`
iterations of the loop. -/
inductive Reaches {T : Type} (ops : NumOps T) :
    VirtualMachine T → VirtualMachine T → Prop where
  | refl (vm : VirtualMachine T) : Reaches ops vm vm
  | tail {vm u w : VirtualMachine T} :
      Reaches ops vm u → step ops u = .next w → Reaches ops vm w

/-- The next fetched instruction attempts a pop on an empty stack: it is a
two-operand opcode over fewer than two elements, or a one-operand opcode
over none. -/
def underflowAt {T : Type} (vm : VirtualMachine T) : Prop :=
  ∃ h : vm.pc < vm.inst.length,
    (isBinaryOp (vm.inst.get ⟨vm.pc, h⟩).inst = true ∧ vm.stack.length < 2) ∨
    (isUnaryOp (vm.inst.get ⟨vm.pc, h⟩).inst = true ∧ vm.stack = [])

/-- The test suite instantiates `T = i64`; we model `i64` as `Int` with
two's-complement wrap-around at the 64-bit boundary. -/
def i64wrap (x : Int) : Int := (x + 2 ^ 63) % 2 ^ 64 - 2 ^ 63

/-- The `i64` instance of the capability set.  `checked_neg` fails exactly
at `i64::MIN`, whose negation is unrepresentable.  Division and remainder
use Rust's truncation toward zero; a zero divisor panics in Rust and is
not modelled (no claim exercises it). -/
def i64Ops : NumOps Int where
  add := fun a b => i64wrap (a + b)
  sub := fun a b => i64wrap (a - b)
  mul := fun a b => i64wrap (a * b)
  div := fun a b => i64wrap (a.tdiv b)
  mod := fun a b => i64wrap (a.tmod b)
  zero := 0
  one := 1
  beq := fun a b => a == b
  blt := fun a b => decide (a < b)
  ble := fun a b => decide (a ≤ b)
  checked_neg := fun a => if a = -(2 ^ 63) then none else some (-a)

example :
    run i64Ops (VirtualMachine.new i64Ops
      [Inst.new_data .LOADC 2, Inst.new_data .LOADC 2,
       Inst.new_inst .ADD, Inst.new_inst .HALT]) =
    .ok ⟨[4], [], [Inst.new_data .LOADC 2, Inst.new_data .LOADC 2,
       Inst.new_inst .ADD, Inst.new_inst .HALT], 2, 4⟩ := by
  decide

example :
    run i64Ops (VirtualMachine.new i64Ops
      [Inst.new_data .LOADC 1, Inst.new_inst .NEG, Inst.new_inst .HALT]) =
    .ok ⟨[-1], [], [Inst.new_data .LOADC 1, Inst.new_inst .NEG,
       Inst.new_inst .HALT], 1, 3⟩ := by
  decide

/-- A `next` outcome keeps the program, advances `pc` by exactly one, and
requires the fetch to have been in bounds. -/
theorem step_next {T : Type} {ops : NumOps T} {vm vm' : VirtualMachine T}
    (h : step ops vm = .next vm') :
    vm'.inst = vm.inst ∧ vm'.pc = vm.pc + 1 ∧ vm.pc < vm.inst.length := by
  unfold step at h
  split at h
  · split at h
    all_goals try cases h
    all_goals simp_all
  · simp at h

/-- The defining loop equation of `run`: one fetch-decode-execute
iteration, then the loop continues on a `next` outcome. -/
theorem run_eq {T : Type} (ops : NumOps T) (vm : VirtualMachine T) :
    run ops vm =
      match step ops vm with
      | .next vm' => run ops vm'
      | .halt vm' => .ok vm'
      | .err m vm' => .err m vm'
      | .fault p => .fault p := by
  unfold run
  by_cases h : vm.pc < vm.inst.length
  · have hsub : vm.inst.length - vm.pc = (vm.inst.length - (vm.pc + 1)) + 1 := by
      omega
    rw [hsub]
    show (match step ops vm with
      | .next vm' => runFuel ops (vm.inst.length - (vm.pc + 1)) vm'
      | .halt vm' => .ok vm'
      | .err m vm' => .err m vm'
      | .fault p => .fault p) = _
    cases hstep : step ops vm with
    | next vm' =>
      obtain ⟨hi, hp, _⟩ := step_next hstep
      simp [hi, hp]
    | halt vm' => rfl
    | err m vm' => rfl
    | fault p => rfl
  · have hsub : vm.inst.length - vm.pc = 0 := by omega
    have hstep : step ops vm = .fault .indexOutOfBounds := by
      unfold step
      simp [h]
    rw [hsub, hstep]
    rfl

/-- Reachability can be extended at the front by one `next` step. -/
theorem Reaches.head {T : Type} {ops : NumOps T}
    {vm vm' u : VirtualMachine T} (h : step ops vm = .next vm')
    (hr : Reaches ops vm' u) : Reaches ops vm u := by
  induction hr with
  | refl => exact Reaches.tail (Reaches.refl vm) h
  | tail _ hstep ih => exact Reaches.tail ih hstep

/-- Running from a state computes the same outcome as running from any
state it reaches. -/
theorem run_reaches {T : Type} {ops : NumOps T} {vm u : VirtualMachine T}
    (h : Reaches ops vm u) : run ops vm = run ops u := by
  induction h with
  | refl => rfl
  | tail _ hstep ih =>
    rw [ih, run_eq, hstep]

/-- A two-operand opcode on a stack with at least two elements pops `a`
then `b` and pushes `f a b`; the scratch register holds the second pop. -/
theorem binOp_cons_cons {T : Type} (f : T → T → T) (a b : T) (rest : List T)
    (data : T) : binOp f (a :: b :: rest) data = .ok (f a b :: rest) b := rfl

/-- A two-operand opcode on the empty stack: the first pop fails with the
stack and scratch register untouched. -/
theorem binOp_nil {T : Type} (f : T → T → T) (data : T) :
    binOp f [] data = .err "Empty stack" [] data := rfl

/-- A two-operand opcode on a one-element stack: the first pop consumes
the element, then the second pop fails on the now-empty stack. -/
theorem binOp_single {T : Type} (f : T → T → T) (a : T) (data : T) :
    binOp f [a] data = .err "Empty stack" [] a := rfl

/-- Errors of `execInst` are exactly the stack underflows: the message is
always "Empty stack" and the stack at failure is always empty. -/
theorem execInst_err_msg {T : Type} {ops : NumOps T} {ir : Inst T}
    {stack s : List T} {data d : T} {m : String}
    (h : execInst ops ir stack data = .err m s d) :
    m = "Empty stack" ∧ s = [] := by
  obtain ⟨b, od⟩ := ir
  cases b <;> cases od <;> rcases stack with _ | ⟨a, _ | ⟨c, t⟩⟩ <;>
    simp [execInst, binOp, pop, top] at h
  all_goals try (obtain ⟨h1, h2, h3⟩ := h; subst h1; subst h2; simp)
  all_goals rcases hn : ops.checked_neg a with _ | r <;> simp [hn] at h

/-- Instruction execution errs exactly when a pop hits the empty stack:
a two-operand
opcode finding fewer than two elements, or a one-operand opcode finding
none. -/
theorem execInst_err_iff {T : Type} (ops : NumOps T) (ir : Inst T)
    (stack : List T) (data : T) :
    (∃ m s d, execInst ops ir stack data = .err m s d) ↔
      ((isBinaryOp ir.inst = true ∧ stack.length < 2) ∨
       (isUnaryOp ir.inst = true ∧ stack = [])) := by
  obtain ⟨b, od⟩ := ir
  cases b <;> cases od <;> rcases stack with _ | ⟨a, _ | ⟨c, t⟩⟩ <;>
    simp [execInst, binOp, pop, top, isBinaryOp, isUnaryOp]
  all_goals rcases hn : ops.checked_neg a with _ | r <;> simp [hn]

/-- The panics of `execInst` are exactly the two `unwrap` sites: a `LOADC`
with no immediate operand, and a `NEG` whose popped operand has no
representable negation. -/
theorem execInst_fault_iff {T : Type} (ops : NumOps T) (ir : Inst T)
    (stack : List T) (data : T) (p : Panic) :
    execInst ops ir stack data = .fault p ↔
      ((p = .unwrapNoneLoadc ∧ ir.inst = .LOADC ∧ ir.data = none) ∨
       (p = .unwrapNoneNeg ∧ ir.inst = .NEG ∧
         ∃ a rest, stack = a :: rest ∧ ops.checked_neg a = none)) := by
  obtain ⟨b, od⟩ := ir
  cases b <;> cases od <;> rcases stack with _ | ⟨a, _ | ⟨c, t⟩⟩ <;>
    simp [execInst, binOp, pop, top]
  all_goals try (rcases hn : ops.checked_neg a with _ | r <;> simp [hn])
  all_goals exact eq_comm

/-- A step errs only with the underflow message, and leaves the stack at
failure empty. -/
theorem step_err_empty {T : Type} {ops : NumOps T} {vm v : VirtualMachine T}
    {m : String} (h : step ops vm = .err m v) :
    m = "Empty stack" ∧ v.stack = [] := by
  unfold step at h
  split at h
  · split at h
    all_goals try cases h
    all_goals simp_all
    rename_i heq
    obtain ⟨h1, h2⟩ := execInst_err_msg heq
    simp [h1, h2]
  · simp at h

/-- A step errs exactly when the fetched instruction attempts to pop from
an empty stack. -/
theorem step_err_iff {T : Type} (ops : NumOps T) (vm : VirtualMachine T) :
    (∃ m v, step ops vm = .err m v) ↔ underflowAt vm := by
  constructor
  · rintro ⟨m, v, hv⟩
    unfold step at hv
    split at hv
    · rename_i hpc
      split at hv
      all_goals cases hv
      rename_i heq
      exact ⟨hpc, (execInst_err_iff ops _ _ _).mp ⟨_, _, _, heq⟩⟩
    · cases hv
  · rintro ⟨hpc, hcond⟩
    obtain ⟨m, s, d, heq⟩ := (execInst_err_iff ops
      (vm.inst.get ⟨vm.pc, hpc⟩) vm.stack vm.data).mpr hcond
    refine ⟨m, { vm with stack := s, data := d, pc := vm.pc + 1 }, ?_⟩
    unfold step
    rw [dif_pos hpc, heq]

/-- A step panics either at the out-of-bounds fetch or at one of the two
`unwrap` sites inside the executed instruction. -/
theorem step_fault {T : Type} {ops : NumOps T} {vm : VirtualMachine T}
    {p : Panic} (h : step ops vm = .fault p) :
    p = .indexOutOfBounds ∨
      ∃ hpc : vm.pc < vm.inst.length,
        execInst ops (vm.inst.get ⟨vm.pc, hpc⟩) vm.stack vm.data = .fault p := by
  unfold step at h
  split at h
  · rename_i hpc
    split at h
    all_goals cases h
    rename_i heq
    exact Or.inr ⟨hpc, heq⟩
  · cases h
    exact Or.inl rfl

/-- The loop fetches at most as many instructions as it has fuel. -/
theorem stepCountFuel_le {T : Type} (ops : NumOps T) (n : Nat)
    (vm : VirtualMachine T) : stepCountFuel ops n vm ≤ n := by
  induction n generalizing vm with
  | zero => simp [stepCountFuel]
  | succ k ih =>
    unfold stepCountFuel
    cases hstep : step ops vm
    all_goals dsimp only
    · exact Nat.succ_le_succ (ih _)
    · omega
    · omega
    · split <;> omega

/-- An erring run passes through a reachable state whose single step
produces exactly that error. -/
theorem runFuel_err_reaches {T : Type} {ops : NumOps T} {n : Nat}
    {vm v : VirtualMachine T} {m : String}
    (h : runFuel ops n vm = .err m v) :
    ∃ u, Reaches ops vm u ∧ step ops u = .err m v := by
  induction n generalizing vm with
  | zero => cases h
  | succ k ih =>
    unfold runFuel at h
    split at h
    · rename_i vm' hstep
      obtain ⟨u, hr, hu⟩ := ih h
      exact ⟨u, Reaches.head hstep hr, hu⟩
    · cases h
    · rename_i vm' hstep
      cases h
      exact ⟨vm, Reaches.refl vm, hstep⟩
    · cases h

/-- If every `LOADC` the execution actually fetches — a `LOADC` at the
program counter of a reachable state — carries an operand, the loop never
reaches the `LOADC` unwrap panic.  Unexecuted instructions are
unconstrained. -/
theorem runFuel_no_loadc_fault {T : Type} (ops : NumOps T) (n : Nat)
    (vm : VirtualMachine T)
    (hpre : ∀ u, Reaches ops vm u → ∀ hpc : u.pc < u.inst.length,
      (u.inst.get ⟨u.pc, hpc⟩).inst = .LOADC →
      (u.inst.get ⟨u.pc, hpc⟩).data ≠ none) :
    runFuel ops n vm ≠ .fault .unwrapNoneLoadc := by
  induction n generalizing vm with
  | zero => simp [runFuel]
  | succ k ih =>
    intro h
    unfold runFuel at h
    split at h
    · rename_i vm' hstep
      exact ih vm' (fun u hr => hpre u (Reaches.head hstep hr)) h
    · cases h
    · cases h
    · rename_i p hstep
      cases h
      rcases step_fault hstep with hiob | ⟨hpc, hexec⟩
      · cases hiob
      · rcases (execInst_fault_iff ops _ _ _ _).mp hexec with
          ⟨_, hinst, hdata⟩ | ⟨hp, _, _⟩
        · exact hpre vm (Reaches.refl vm) hpc hinst hdata
        · cases hp

/-- C1: the spec's intended semantics for GE is one/zero for
`a > b` (first-popped greater than second-popped) and for GEQ one/zero
for `a ≥ b`.  The code instead evaluates `a < b` and `a ≤ b`: with
`a = 1, b = 0` the GE program yields stack `[0]` where the intended
semantics demands `[1]`, and with `a = 0, b = 1` the GEQ program yields
`[1]` where the intended semantics demands `[0]`. -/
theorem ge_geq_compute_lt_le :
    run i64Ops (VirtualMachine.new i64Ops
      [Inst.new_data .LOADC 0, Inst.new_data .LOADC 1,
       Inst.new_inst .GE, Inst.new_inst .HALT]) =
      .ok ⟨[0], [], [Inst.new_data .LOADC 0, Inst.new_data .LOADC 1,
        Inst.new_inst .GE, Inst.new_inst .HALT], 0, 4⟩ ∧
    run i64Ops (VirtualMachine.new i64Ops
      [Inst.new_data .LOADC 1, Inst.new_data .LOADC 0,
       Inst.new_inst .GEQ, Inst.new_inst .HALT]) =
      .ok ⟨[1], [], [Inst.new_data .LOADC 1, Inst.new_data .LOADC 0,
        Inst.new_inst .GEQ, Inst.new_inst .HALT], 1, 4⟩ := by
  constructor
  · decide
  · decide

/-- C2 counterexample: at `i64::MIN` the NEG opcode does not produce a
typed error result of `run` — the run ends in the `unwrap` panic. -/
theorem neg_overflow_panics_at_min :
    run i64Ops (VirtualMachine.new i64Ops
      [Inst.new_data .LOADC (-(2 ^ 63)), Inst.new_inst .NEG,
       Inst.new_inst .HALT]) =
      .fault .unwrapNoneNeg := by
  decide

/-- C2 amended: when the operand popped by NEG has no representable
negation, `run` faults (the panic of `checked_neg().unwrap()`) instead of
returning a typed error; execution still halts at the point of failure. -/
theorem neg_overflow_faults {T : Type} (ops : NumOps T)
    (vm : VirtualMachine T) (a : T) (rest : List T)
    (hpc : vm.pc < vm.inst.length)
    (hins : (vm.inst.get ⟨vm.pc, hpc⟩).inst = .NEG)
    (hstack : vm.stack = a :: rest)
    (hneg : ops.checked_neg a = none) :
    run ops vm = .fault .unwrapNoneNeg := by
  rw [run_eq]
  have hstep : step ops vm = .fault .unwrapNoneNeg := by
    unfold step
    rw [dif_pos hpc]
    have hexec : execInst ops (vm.inst.get ⟨vm.pc, hpc⟩) vm.stack vm.data =
        .fault .unwrapNoneNeg := by
      unfold execInst
      rw [hins, hstack]
      simp [pop, top, hneg]
    rw [hexec]
  rw [hstep]

/-- C2 witness: the amended statement at `i64::MIN` on a one-instruction
NEG program. -/
theorem neg_overflow_faults_witness :
    run i64Ops ⟨[-(2 ^ 63)], [], [Inst.new_inst .NEG], 0, 0⟩ =
      .fault .unwrapNoneNeg :=
  neg_overflow_faults i64Ops ⟨[-(2 ^ 63)], [], [Inst.new_inst .NEG], 0, 0⟩
    (-(2 ^ 63)) [] (by decide) rfl rfl (by decide)

/-- C3 counterexample: `[LOADC(1), ADD, HALT]` fails with the underflow
error, but the failing ADD did mutate the stack: its first pop consumed
the single element, so the stack at failure is `[]`, not the `[1]` it
held immediately before the instruction executed. -/
theorem binary_underflow_mutates_stack :
    run i64Ops (VirtualMachine.new i64Ops
      [Inst.new_data .LOADC 1, Inst.new_inst .ADD, Inst.new_inst .HALT]) =
      .err "Empty stack" ⟨[], [], [Inst.new_data .LOADC 1,
        Inst.new_inst .ADD, Inst.new_inst .HALT], 1, 2⟩ ∧
    ([] : List Int) ≠ [1] := by
  constructor
  · decide
  · decide

/-- C3 amended: a binary operator over fewer than two elements, or a
unary operator over none, makes `run` fail with the stack-underflow
error; the stack at the failure is empty — for a binary operator with
exactly one element that element was consumed by the successful first
pop, while the failing pop itself leaves the stack untouched. -/
theorem underflow_error_empties_stack {T : Type} (ops : NumOps T)
    (vm : VirtualMachine T) (hpc : vm.pc < vm.inst.length)
    (hcond : (isBinaryOp (vm.inst.get ⟨vm.pc, hpc⟩).inst = true ∧
        vm.stack.length < 2) ∨
      (isUnaryOp (vm.inst.get ⟨vm.pc, hpc⟩).inst = true ∧ vm.stack = [])) :
    ∃ v, run ops vm = .err "Empty stack" v ∧ v.stack = [] := by
  obtain ⟨m, v, hv⟩ := (step_err_iff ops vm).mpr ⟨hpc, hcond⟩
  obtain ⟨hm, hs⟩ := step_err_empty hv
  subst hm
  refine ⟨v, ?_, hs⟩
  rw [run_eq, hv]

/-- C3 witness: the amended statement on an ADD fetched over the
one-element stack `[1]`. -/
theorem underflow_error_empties_stack_witness :
    ∃ v, run i64Ops ⟨[1], [], [Inst.new_inst .ADD], 0, 0⟩ =
      .err "Empty stack" v ∧ v.stack = [] :=
  underflow_error_empties_stack i64Ops ⟨[1], [], [Inst.new_inst .ADD], 0, 0⟩
    (by decide) (Or.inl ⟨rfl, by decide⟩)

/-- C4: `run` returns an error only with the stack-underflow message; it
does so exactly when execution reaches a state whose fetched instruction
attempts to pop from an empty stack; and the error produced by that very
step is the immediate result of the whole run — no later instruction
contributes. -/
theorem underflow_iff_empty_pop {T : Type} (ops : NumOps T)
    (vm : VirtualMachine T) :
    (∀ m v, run ops vm = .err m v → m = "Empty stack") ∧
    ((∃ m v, run ops vm = .err m v) ↔
      ∃ u, Reaches ops vm u ∧ underflowAt u) ∧
    (∀ u m v, Reaches ops vm u → step ops u = .err m v →
      run ops vm = .err m v) := by
  have habort : ∀ u m v, Reaches ops vm u → step ops u = .err m v →
      run ops vm = .err m v := by
    intro u m v hr hs
    rw [run_reaches hr, run_eq, hs]
  refine ⟨?_, ⟨?_, ?_⟩, habort⟩
  · intro m v h
    obtain ⟨u, hr, hu⟩ := runFuel_err_reaches h
    exact (step_err_empty hu).1
  · rintro ⟨m, v, h⟩
    obtain ⟨u, hr, hu⟩ := runFuel_err_reaches h
    exact ⟨u, hr, (step_err_iff ops u).mp ⟨m, v, hu⟩⟩
  · rintro ⟨u, hr, hcond⟩
    obtain ⟨m, v, hv⟩ := (step_err_iff ops u).mpr hcond
    exact ⟨m, v, habort u m v hr hv⟩

/-- C4 witness: the abort-at-failure component on a NOT over the empty
stack, with reachability discharged by reflexivity. -/
theorem underflow_iff_empty_pop_witness :
    run i64Ops ⟨[], [], [Inst.new_inst .NOT], 0, 0⟩ =
      .err "Empty stack" ⟨[], [], [Inst.new_inst .NOT], 0, 1⟩ :=
  (underflow_iff_empty_pop i64Ops ⟨[], [], [Inst.new_inst .NOT], 0, 0⟩).2.2
    ⟨[], [], [Inst.new_inst .NOT], 0, 0⟩ "Empty stack"
    ⟨[], [], [Inst.new_inst .NOT], 0, 1⟩
    (Reaches.refl ⟨[], [], [Inst.new_inst .NOT], 0, 0⟩) (by decide)

/-- C5: the loop fetches at most `inst.length - pc` more instructions
from any state (hence at most N for an N-instruction program started by
`new`, whose program counter is 0), and every continuing step advances
the program counter by exactly one over the unchanged program — so no
instruction position is ever fetched twice. -/
theorem run_terminates_in_program_length {T : Type} (ops : NumOps T)
    (vm : VirtualMachine T) (l : List (Inst T)) :
    stepCount ops vm ≤ vm.inst.length - vm.pc ∧
    (VirtualMachine.new ops l).pc = 0 ∧
    stepCount ops (VirtualMachine.new ops l) ≤ l.length ∧
    (∀ vm', step ops vm = .next vm' →
      vm'.pc = vm.pc + 1 ∧ vm'.inst = vm.inst) := by
  refine ⟨stepCountFuel_le ops _ vm, rfl, ?_, ?_⟩
  · exact stepCountFuel_le ops _ _
  · intro vm' h
    obtain ⟨hi, hp, _⟩ := step_next h
    exact ⟨hp, hi⟩

/-- C5 witness: the step of a LOADC advances the program counter from 0
to 1 over the unchanged two-instruction program, and the run from `new`
fetches at most its two instructions. -/
theorem run_terminates_witness :
    ((⟨[7], [], [Inst.new_data .LOADC 7, Inst.new_inst .HALT], 0, 1⟩ :
        VirtualMachine Int).pc =
      (⟨[], [], [Inst.new_data .LOADC 7, Inst.new_inst .HALT], 0,
        0⟩ : VirtualMachine Int).pc + 1 ∧
     (⟨[7], [], [Inst.new_data .LOADC 7, Inst.new_inst .HALT], 0, 1⟩ :
        VirtualMachine Int).inst =
      (⟨[], [], [Inst.new_data .LOADC 7, Inst.new_inst .HALT], 0,
        0⟩ : VirtualMachine Int).inst) ∧
    stepCount i64Ops (VirtualMachine.new i64Ops
      [Inst.new_data .LOADC 7, Inst.new_inst .HALT]) ≤ 2 :=
  ⟨(run_terminates_in_program_length i64Ops
      ⟨[], [], [Inst.new_data .LOADC 7, Inst.new_inst .HALT], 0, 0⟩
      []).2.2.2
    ⟨[7], [], [Inst.new_data .LOADC 7, Inst.new_inst .HALT], 0, 1⟩
    (by decide),
   (run_terminates_in_program_length i64Ops
      ⟨[], [], [], 0, 0⟩
      [Inst.new_data .LOADC 7, Inst.new_inst .HALT]).2.2.1⟩

/-- C6: SUB pops `a` (the most recent push), pops `b`, and pushes
`a - b`: on a stack whose top two elements are `x` then `y` the result is
`x - y`, the scratch register holds the second pop, and the program
counter advances by one. -/
theorem sub_first_pop_is_left_operand {T : Type} (ops : NumOps T)
    (vm : VirtualMachine T) (x y : T) (rest : List T)
    (hpc : vm.pc < vm.inst.length)
    (hins : (vm.inst.get ⟨vm.pc, hpc⟩).inst = .SUB)
    (hstack : vm.stack = x :: y :: rest) :
    step ops vm = .next
      { vm with stack := ops.sub x y :: rest, data := y,
                pc := vm.pc + 1 } := by
  unfold step
  rw [dif_pos hpc]
  have hexec : execInst ops (vm.inst.get ⟨vm.pc, hpc⟩) vm.stack vm.data =
      .ok (ops.sub x y :: rest) y := by
    unfold execInst
    rw [hins, hstack]
    rfl
  rw [hexec]

/-- C6 witness: SUB over the stack `[1, 5]` (1 on top) pushes
`1 - 5 = -4`. -/
theorem sub_first_pop_witness :
    step i64Ops ⟨[1, 5], [], [Inst.new_inst .SUB], 0, 0⟩ =
      .next ⟨[-4], [], [Inst.new_inst .SUB], 5, 1⟩ := by
  have h := sub_first_pop_is_left_operand i64Ops
    ⟨[1, 5], [], [Inst.new_inst .SUB], 0, 0⟩ 1 5 [] (by decide) rfl rfl
  rw [h]
  decide

/-- C7: `t_to_bool` compares its argument against one, so a value is true
exactly when it equals one (under a lawful equality test) and every other
value — 0 and 2 among them — is false; `bool_to_t` re-encodes true as one
and false as zero; AND, OR and NOT coerce every popped operand through
`t_to_bool` and push the re-encoded result. -/
theorem bool_coercion_one_zero {T : Type} (ops : NumOps T) :
    (∀ v : T, t_to_bool ops v = ops.beq v ops.one) ∧
    bool_to_t ops true = ops.one ∧
    bool_to_t ops false = ops.zero ∧
    ((∀ a b : T, ops.beq a b = true ↔ a = b) →
      ∀ v : T, t_to_bool ops v = true ↔ v = ops.one) ∧
    (∀ (a b : T) (rest : List T) (data : T),
      execInst ops (Inst.new_inst .AND) (a :: b :: rest) data =
        .ok (bool_to_t ops (t_to_bool ops a && t_to_bool ops b) :: rest) b ∧
      execInst ops (Inst.new_inst .OR) (a :: b :: rest) data =
        .ok (bool_to_t ops (t_to_bool ops a || t_to_bool ops b) :: rest) b) ∧
    (∀ (a : T) (rest : List T) (data : T),
      execInst ops (Inst.new_inst .NOT) (a :: rest) data =
        .ok (bool_to_t ops (!t_to_bool ops a) :: rest) a) ∧
    t_to_bool i64Ops 2 = false ∧
    t_to_bool i64Ops 0 = false ∧
    t_to_bool i64Ops 1 = true := by
  refine ⟨fun v => rfl, rfl, rfl, fun hlaw v => hlaw v ops.one,
    fun a b rest data => ⟨rfl, rfl⟩, fun a rest data => rfl,
    by decide, by decide, by decide⟩

/-- C7 witness: the lawful-equality component instantiated at the `i64`
operations and the value 2, which is therefore not boolean-true. -/
theorem bool_coercion_witness :
    t_to_bool i64Ops 2 = true ↔ (2 : Int) = i64Ops.one :=
  (bool_coercion_one_zero i64Ops).2.2.2.1 (fun _ _ => beq_iff_eq) 2

/-- C8: for every constant `c`, the program `[LOADC(c), HALT]` runs to
success with exactly the one-element stack `[c]`; in particular
`[LOADC(0), HALT]` over `i64` yields the final stack `[0]`. -/
theorem loadc_halt_single_element {T : Type} (ops : NumOps T) (c : T) :
    run ops (VirtualMachine.new ops
      [Inst.new_data .LOADC c, Inst.new_inst .HALT]) =
      .ok ⟨[c], [], [Inst.new_data .LOADC c, Inst.new_inst .HALT],
        ops.zero, 2⟩ ∧
    VirtualMachine.debug_stack
      (⟨[c], [], [Inst.new_data .LOADC c, Inst.new_inst .HALT],
        ops.zero, 2⟩ : VirtualMachine T) = [c] ∧
    run i64Ops (VirtualMachine.new i64Ops
      [Inst.new_data .LOADC 0, Inst.new_inst .HALT]) =
      .ok ⟨[0], [], [Inst.new_data .LOADC 0, Inst.new_inst .HALT],
        0, 2⟩ := by
  refine ⟨rfl, rfl, by decide⟩

/-- C9: GE executes exactly the same state transformation as LE, and GEQ
exactly the same as LEQ, whatever the operand field, the stack and the
scratch register; on a two-element stack both members of each pair push
one/zero for first-popped < second-popped (respectively ≤). -/
theorem ge_le_same_transformation {T : Type} (ops : NumOps T) :
    (∀ (d : Option T) (stack : List T) (data : T),
      execInst ops ⟨.GE, d⟩ stack data = execInst ops ⟨.LE, d⟩ stack data) ∧
    (∀ (d : Option T) (stack : List T) (data : T),
      execInst ops ⟨.GEQ, d⟩ stack data =
        execInst ops ⟨.LEQ, d⟩ stack data) ∧
    (∀ (a b : T) (rest : List T) (data : T),
      execInst ops ⟨.GE, none⟩ (a :: b :: rest) data =
        .ok (bool_to_t ops (ops.blt a b) :: rest) b ∧
      execInst ops ⟨.GEQ, none⟩ (a :: b :: rest) data =
        .ok (bool_to_t ops (ops.ble a b) :: rest) b) :=
  ⟨fun _ _ _ => rfl, fun _ _ _ => rfl, fun _ _ _ _ => ⟨rfl, rfl⟩⟩

/-- C10: `run` never hits the LOADC unwrap panic when every *executed*
LOADC — one fetched at the program counter of a reachable state — carries
an operand, however malformed the unexecuted instructions; an executed
LOADC without operand makes `run` fault rather than return a typed error;
and `new` accepts any instruction list unvalidated. -/
theorem loadc_unwrap_totality {T : Type} (ops : NumOps T)
    (vm : VirtualMachine T) :
    ((∀ u, Reaches ops vm u → ∀ hpc : u.pc < u.inst.length,
        (u.inst.get ⟨u.pc, hpc⟩).inst = .LOADC →
        (u.inst.get ⟨u.pc, hpc⟩).data ≠ none) →
      run ops vm ≠ .fault .unwrapNoneLoadc) ∧
    (∀ hpc : vm.pc < vm.inst.length,
      (vm.inst.get ⟨vm.pc, hpc⟩).inst = .LOADC →
      (vm.inst.get ⟨vm.pc, hpc⟩).data = none →
      run ops vm = .fault .unwrapNoneLoadc) ∧
    (∀ l : List (Inst T),
      VirtualMachine.new ops l = ⟨[], [], l, ops.zero, 0⟩) := by
  refine ⟨?_, ?_, fun l => rfl⟩
  · intro hpre
    exact runFuel_no_loadc_fault ops _ vm hpre
  · intro hpc hinst hdata
    rw [run_eq]
    have hstep : step ops vm = .fault .unwrapNoneLoadc := by
      unfold step
      rw [dif_pos hpc]
      have hexec : execInst ops (vm.inst.get ⟨vm.pc, hpc⟩) vm.stack
          vm.data = .fault .unwrapNoneLoadc := by
        unfold execInst
        rw [hinst, hdata]
      rw [hexec]
    rw [hstep]

/-- C10 witness: an executed LOADC with no operand faults, and the
program `[HALT, LOADC(no operand)]` — whose malformed LOADC is never
executed, only the HALT is — never reaches that panic: the only reachable
state is the initial one and it fetches the HALT. -/
theorem loadc_unwrap_totality_witness :
    run i64Ops ⟨[], [], [Inst.new_inst .LOADC], 0, 0⟩ =
      .fault .unwrapNoneLoadc ∧
    run i64Ops (VirtualMachine.new i64Ops
      [Inst.new_inst .HALT, Inst.new_inst .LOADC]) ≠
      .fault .unwrapNoneLoadc := by
  constructor
  · exact (loadc_unwrap_totality i64Ops
      ⟨[], [], [Inst.new_inst .LOADC], 0, 0⟩).2.1 (by decide) rfl rfl
  · have hreach : ∀ u, Reaches i64Ops (VirtualMachine.new i64Ops
        [Inst.new_inst .HALT, Inst.new_inst .LOADC]) u →
        u = VirtualMachine.new i64Ops
          [Inst.new_inst .HALT, Inst.new_inst .LOADC] := by
      intro u hr
      induction hr with
      | refl => rfl
      | tail hr' hstep ih =>
        rw [ih] at hstep
        rw [show step i64Ops (VirtualMachine.new i64Ops
            [Inst.new_inst .HALT, Inst.new_inst .LOADC]) =
          .halt ⟨[], [], [Inst.new_inst .HALT, Inst.new_inst .LOADC],
            0, 1⟩ from by decide] at hstep
        cases hstep
    refine (loadc_unwrap_totality i64Ops (VirtualMachine.new i64Ops
      [Inst.new_inst .HALT, Inst.new_inst .LOADC])).1 ?_
    intro u hr hpc hinst
    have hu := hreach u hr
    subst hu
    simp [VirtualMachine.new, Inst.new_inst] at hinst

end Esta
